import Mathlib

/-!
Verification development for `bugzilla/_authfiles.py`: a shallow embedding of
the bugzillarc file matcher, the token cache, the cookie cache and the default
path resolution, together with theorems about the claimed behaviours.

Machine-level details that the claims do not touch (ConfigParser value
interpolation, the DEFAULT section, raised Python exception classes) are not
modelled; fallible operations return `Except String`.
-/

namespace Authfiles

/-! ## URL parsing (CPython `urllib.parse.urlparse`, netloc and path parts) -/

/-- Characters allowed in a URL scheme (`urllib.parse.scheme_chars`). -/
def schemeChar (c : Char) : Bool :=
  c.isAlpha || c.isDigit || c = '+' || c = '-' || c = '.'

/-- CPython `urlsplit` removes tab, carriage return and newline from the URL. -/
def stripBadBytes (l : List Char) : List Char :=
  l.filter (fun c => !(c = '\t' || c = '\r' || c = '\n'))

/-- CPython `urlsplit` scheme detection: when the URL starts with
`<letter><scheme chars>:`, everything up to and including the colon is the
scheme and is removed from the remainder. -/
def stripScheme (u : List Char) : List Char :=
  match u.findIdx? (fun c => c = ':') with
  | some i =>
    if 0 < i && (u.take i).all schemeChar &&
        (match u.head? with | some c => c.isAlpha | none => false) then
      u.drop (i + 1)
    else u
  | none => u

/-- A character ending the netloc component (`urllib.parse._splitnetloc`). -/
def netlocDelim (c : Char) : Bool := c = '/' || c = '?' || c = '#'

/-- CPython `urlsplit`: when the remainder starts with `//`, the netloc is
everything after it up to the first `/`, `?` or `#`. -/
def splitNetloc (u : List Char) : List Char × List Char :=
  match u with
  | '/' :: '/' :: rest =>
    (rest.takeWhile (fun c => !netlocDelim c), rest.dropWhile (fun c => !netlocDelim c))
  | _ => ([], u)

/-- CPython `urlparse._splitparams`: in the substring after the last `/`
(the whole string when there is no `/`), truncate at the first `;`. -/
def dropParams (p : List Char) : List Char :=
  let seg := (p.reverse.takeWhile (fun c => c ≠ '/')).reverse
  p.take (p.length - seg.length) ++ seg.takeWhile (fun c => c ≠ ';')

/-- The `netloc` and `path` components of CPython `urlparse(url)`. -/
def urlparseNetlocPath (url : String) : String × String :=
  let u0 := stripBadBytes url.toList
  let u1 := stripScheme u0
  let nl := splitNetloc u1
  let beforeFragment := nl.2.takeWhile (fun c => c ≠ '#')
  let beforeQuery := beforeFragment.takeWhile (fun c => c ≠ '?')
  (String.mk nl.1, String.mk (dropParams beforeQuery))

/-- `urlparse(url)[1]`, the netloc component, as used by
`_BugzillaTokenCache._get_domain`. -/
def netlocOf (url : String) : String := (urlparseNetlocPath url).1

/-- `_parse_hostname(url)`: `urlparse(url).netloc or urlparse(url).path`
(Python `or`: the netloc when it is nonempty, else the path). -/
def parse_hostname (url : String) : String :=
  let np := urlparseNetlocPath url
  if np.1 = "" then np.2 else np.1

/-! ## Sectioned key-value stores (the `ConfigParser` fragment used here) -/

/-- The key-value pairs of one section, in insertion order. -/
abbrev Assoc := List (String × String)

/-- The parsed content of one on-disk sectioned file: named sections in file
order, each with its key-value pairs (section and key names already
normalized the way `ConfigParser` stores them). -/
abbrev ConfigFile := List (String × Assoc)

/-- In-memory state of a `ConfigParser`: named sections in insertion order. -/
structure Store where
  sections : List (String × Assoc)
deriving DecidableEq

/-- Value of key `k` in an association list (first occurrence). -/
def lookupA (a : Assoc) (k : String) : Option String :=
  (a.find? (fun p => p.1 == k)).map (fun p => p.2)

/-- Set key `k` to `v`: overwrite in place when present (dict update keeps the
insertion position), else append at the end. -/
def setKey (a : Assoc) (k v : String) : Assoc :=
  if (a.find? (fun p => p.1 == k)).isSome then
    a.map (fun p => if p.1 == k then (p.1, v) else p)
  else a ++ [(k, v)]

/-- Delete key `k` (`ConfigParser.remove_option`). -/
def removeKey (a : Assoc) (k : String) : Assoc :=
  a.filter (fun p => p.1 != k)

/-- `cfg.sections()`: the section names in insertion order. -/
def Store.names (st : Store) : List String := st.sections.map (fun p => p.1)

/-- The pairs of section `s`, when the section exists. -/
def Store.getSec (st : Store) (s : String) : Option Assoc :=
  (st.sections.find? (fun p => p.1 == s)).map (fun p => p.2)

/-- `s in cfg.sections()`. -/
def Store.hasSection (st : Store) (s : String) : Bool :=
  st.names.contains s

/-- `cfg.has_option(s, k) and cfg.get(s, k)` combined: the stored value of
key `k` in section `s`, if any. -/
def Store.get (st : Store) (s k : String) : Option String :=
  (st.getSec s).bind (fun a => lookupA a k)

/-- `cfg.add_section(s)`: a new empty section at the end. -/
def Store.addSection (st : Store) (s : String) : Store :=
  ⟨st.sections ++ [(s, [])]⟩

/-- Apply `g` to the pairs of section `s`, leaving everything else alone. -/
def mapSec (st : Store) (s : String) (g : Assoc → Assoc) : Store :=
  ⟨st.sections.map (fun p => if p.1 == s then (p.1, g p.2) else p)⟩

/-- `cfg.set(s, k, v)` (call sites only use it on an existing section). -/
def Store.setOpt (st : Store) (s k v : String) : Store :=
  mapSec st s (fun a => setKey a k v)

/-- `cfg.remove_option(s, k)`. -/
def Store.removeOpt (st : Store) (s k : String) : Store :=
  mapSec st s (fun a => removeKey a k)

/-- Reading one section of a later file into an already-populated parser:
existing keys are overridden, new keys appended (`ConfigParser._read`). -/
def updInto (base : Assoc) (upd : Assoc) : Assoc :=
  upd.foldl (fun acc kv => setKey acc kv.1 kv.2) base

/-- Merge one parsed section into the store, the way `ConfigParser._read`
does when several files are read into the same parser. -/
def mergeSectionInto (st : Store) (s : String) (a : Assoc) : Store :=
  if st.hasSection s then mapSec st s (fun b => updInto b a)
  else ⟨st.sections ++ [(s, updInto [] a)]⟩

/-- Read one parsed file into the store. -/
def mergeFile (st : Store) (f : ConfigFile) : Store :=
  f.foldl (fun acc sa => mergeSectionInto acc sa.1 sa.2) st

/-- `ConfigParser().read(paths)` over a filesystem mapping a path to the
parsed content of the file there (`none` when the file does not exist:
`read` silently skips missing files). -/
def readFiles (fs : String → Option ConfigFile) (paths : List String) : Store :=
  paths.foldl (fun acc p => match fs p with | some f => mergeFile acc f | none => acc) ⟨[]⟩

/-! ## `_BugzillaRCFile` -/

/-- `os.path.expanduser` for the cases this module uses: a leading `~` (alone
or followed by `/`) is replaced by the home directory; `~user` forms and
paths not starting with `~` are returned unchanged. -/
def expanduser (home p : String) : String :=
  match p.toList with
  | '~' :: rest =>
    if rest = [] || rest.head? = some '/' then home ++ String.mk rest else p
  | _ => p

/-- State of a `_BugzillaRCFile` after `set_configpaths`. -/
structure BugzillaRCFile where
  cfg : Store
  configpaths : List String
deriving DecidableEq

/-- `_BugzillaRCFile.get_default_configpaths()`. -/
def get_default_configpaths : List String :=
  ["/etc/bugzillarc", "~/.bugzillarc", "~/.config/python-bugzilla/bugzillarc"]

/-- `_BugzillaRCFile.set_configpaths`: expand each path, then
`ConfigParser().read(configpaths)` over the filesystem `fs`. -/
def BugzillaRCFile.set_configpaths (home : String) (fs : String → Option ConfigFile)
    (configpaths : List String) : BugzillaRCFile :=
  let ps := configpaths.map (expanduser home)
  ⟨readFiles fs ps, ps⟩

/-- Python's substring test `needle in hay` on strings. -/
def isSubstring (needle hay : List Char) : Bool :=
  (List.range (hay.length + 1)).any (fun i => needle.isPrefixOf (hay.drop i))

/-- The loop body of `_BugzillaRCFile.parse`: walk the sorted section names;
a name without `/` matches by equality with the URL host, a name with `/`
by being a substring of the full URL; stop at the first name for which the
`section` variable becomes nonempty. -/
def parseLoop (urlhost url : String) : List String → String
  | [] => ""
  | sh :: rest =>
    let m := if !(sh.toList.contains '/') then
               (if sh == urlhost then sh else "")
             else (if isSubstring sh.toList url.toList then sh else "")
    if m = "" then parseLoop urlhost url rest else m

/-- The section names in `sorted(...)` order. -/
def sortedSections (st : Store) : List String :=
  List.insertionSort (fun a b => a ≤ b) st.names

/-- `_BugzillaRCFile.parse(url)`: find the section for the URL and return
all its fields, or an empty mapping when no section matches. -/
def BugzillaRCFile.parse (rc : BugzillaRCFile) (url : String) : Assoc :=
  let urlhost := parse_hostname url
  let sec := parseLoop urlhost url (sortedSections rc.cfg)
  if sec = "" then [] else (rc.cfg.getSec sec).getD []

/-! ## `_BugzillaTokenCache` -/

/-- State of a `_BugzillaTokenCache`: `_cfg` is `None` until `set_filename`
has been called. -/
structure TokenCache where
  filename : Option String
  cfg : Option Store
deriving DecidableEq

/-- `_BugzillaTokenCache.__init__`. -/
def TokenCache.init : TokenCache := ⟨none, none⟩

/-- The failure of calling a method on `self._cfg` while it is `None`. -/
def attrError : String := "AttributeError: NoneType object has no attribute"

/-- `if domain not in self._cfg.sections(): self._cfg.add_section(domain)`. -/
def ensureSection (st : Store) (s : String) : Store :=
  if st.hasSection s then st else st.addSection s

/-- `_BugzillaTokenCache._get_domain(url)`: the key is `urlparse(url)[1]`,
the netloc; an absent section is created in memory. Fails when `_cfg` is
still `None`. Returns the domain together with the updated parser state. -/
def TokenCache.get_domain (tc : TokenCache) (url : String) :
    Except String (String × Store) :=
  match tc.cfg with
  | none => .error attrError
  | some st => .ok (netlocOf url, ensureSection st (netlocOf url))

/-- `_BugzillaTokenCache.get_value(url)`. -/
def TokenCache.get_value (tc : TokenCache) (url : String) :
    Except String (Option String × TokenCache) :=
  match tc.get_domain url with
  | .error e => .error e
  | .ok (domain, st) => .ok (st.get domain "token", ⟨tc.filename, some st⟩)

/-- The file writes performed by `if self._filename: ... self._cfg.write(...)`:
nothing when no truthy (non-`None`, nonempty) filename is configured, else
one full rewrite of the file with the parser state. -/
def writeList (filename : Option String) (st2 : Store) : List (String × Store) :=
  match filename with
  | some fn => if fn = "" then [] else [(fn, st2)]
  | none => []

/-- `_BugzillaTokenCache.set_value(url, value)`: no-op when the current value
equals `value`; `None` removes the `token` key, any string sets it; the file
is rewritten only when a truthy filename is configured. The returned list
records every `(filename, content)` write performed. -/
def TokenCache.set_value (tc : TokenCache) (url : String) (value : Option String) :
    Except String (TokenCache × List (String × Store)) :=
  match tc.get_value url with
  | .error e => .error e
  | .ok (cur, tc1) =>
    if cur = value then .ok (tc1, [])
    else
      match tc1.get_domain url with
      | .error e => .error e
      | .ok (domain, st) =>
        let st2 := match value with
          | none => st.removeOpt domain "token"
          | some v => st.setOpt domain "token" v
        let tc2 : TokenCache := ⟨tc1.filename, some st2⟩
        .ok (tc2, writeList tc2.filename st2)

/-- `_BugzillaTokenCache.set_filename(filename)`: a fresh parser; an existing
file at a truthy filename is read in. -/
def TokenCache.set_filename (fs : String → Option ConfigFile)
    (filename : Option String) : TokenCache :=
  let cfg : Store :=
    match filename with
    | some fn => if fn = "" then ⟨[]⟩ else readFiles fs [fn]
    | none => ⟨[]⟩
  ⟨filename, some cfg⟩

/-! ## `_save_api_key` -/

/-- Python `str.strip()`: leading and trailing whitespace removed. -/
def pyStrip (s : String) : String :=
  String.mk ((s.toList.dropWhile Char.isWhitespace).reverse.dropWhile Char.isWhitespace).reverse

/-- The destination filename of `_save_api_key`: the first of `configpaths`
when that list is non-empty, else the default config location. -/
def save_api_key_filename (configpaths : List String) (defaultPath : String) : String :=
  match configpaths with
  | p :: _ => p
  | [] => defaultPath

/-- The store `_save_api_key(url, api_key, ...)` writes to the destination
file, as a function of the parsed existing content `dest` of that file:
read it, ensure the section for `_parse_hostname(url)` exists, set its
`api_key` to the stripped key, and rewrite the whole file. -/
def save_api_key_store (dest : ConfigFile) (url api_key : String) : Store :=
  let sect := parse_hostname url
  let cfg := mergeFile ⟨[]⟩ dest
  let cfg := if cfg.hasSection sect then cfg else cfg.addSection sect
  cfg.setOpt sect "api_key" (pyStrip api_key)

/-! ## `_default_location` -/

/-- Filesystem model for path resolution: the set of existing paths plus a
log of the `os.makedirs` calls performed. -/
structure PathFS where
  paths : List String
  created : List (String × Nat)
deriving DecidableEq

/-- `os.path.exists`. -/
def pathExists (fs : PathFS) (p : String) : Bool := fs.paths.contains p

/-- `os.makedirs(d, mode)` (the claims only concern the leaf directory). -/
def makedirs (fs : PathFS) (d : String) (mode : Nat) : PathFS :=
  ⟨fs.paths ++ [d], fs.created ++ [(d, mode)]⟩

/-- `posixpath.dirname`, step 1: `p[:i+1]` where `i` is the index of the
last `/` (everything up to and including the last slash; empty when there is
no slash). -/
def dirnameHead (p : String) : List Char :=
  p.toList.take
    (p.toList.length - (p.toList.reverse.takeWhile (fun c => c ≠ '/')).length)

/-- `posixpath.dirname`: everything up to the last `/`, with trailing
slashes stripped unless the result is empty or all slashes. -/
def dirname (p : String) : String :=
  if dirnameHead p ≠ [] && !((dirnameHead p).all (fun c => c = '/')) then
    String.mk ((dirnameHead p).reverse.dropWhile (fun c => c = '/')).reverse
  else String.mk (dirnameHead p)

/-- `os.path.expanduser("~/.%s" % filename)`. -/
def homePathOf (home filename : String) : String := home ++ "/." ++ filename

/-- `os.path.expanduser("~/.%s/python-bugzilla/%s" % (kind, filename))`. -/
def xdgPathOf (home kind filename : String) : String :=
  home ++ "/." ++ kind ++ "/python-bugzilla/" ++ filename

/-- `_default_location(filename, kind)`: the XDG-style path when it exists,
else the legacy home path when it exists, else the XDG-style path after
making sure its parent directory exists (created with mode `0o700`). -/
def default_location (home : String) (fs : PathFS) (filename kind : String) :
    String × PathFS :=
  let homepath := homePathOf home filename
  let xdgpath := xdgPathOf home kind filename
  if pathExists fs xdgpath then (xdgpath, fs)
  else if pathExists fs homepath then (homepath, fs)
  else if pathExists fs (dirname xdgpath) then (xdgpath, fs)
  else (xdgpath, makedirs fs (dirname xdgpath) 448)

/-- `_default_cache_location`. -/
def default_cache_location (home : String) (fs : PathFS) (filename : String) :
    String × PathFS :=
  default_location home fs filename "cache"

/-- `_default_config_location`. -/
def default_config_location (home : String) (fs : PathFS) (filename : String) :
    String × PathFS :=
  default_location home fs filename "config"

/-! ## `_BugzillaCookieCache` -/

/-- Filesystem model for the cookie cache: file contents plus a log of the
`os.chmod` calls performed. -/
structure CookieFS where
  files : List (String × String)
  chmods : List (String × Nat)
deriving DecidableEq

/-- `os.path.exists` on the cookie filesystem. -/
def CookieFS.hasFile (fs : CookieFS) (p : String) : Bool :=
  fs.files.any (fun q => q.1 == p)

/-- The content of file `p` (empty for a missing file; reads are only
performed on existing files). -/
def CookieFS.readFile (fs : CookieFS) (p : String) : String :=
  ((fs.files.find? (fun q => q.1 == p)).map (fun q => q.2)).getD ""

/-- Write `c` to file `p`, creating it when absent. -/
def CookieFS.writeFile (fs : CookieFS) (p c : String) : CookieFS :=
  if fs.hasFile p then
    ⟨fs.files.map (fun q => if q.1 == p then (q.1, c) else q), fs.chmods⟩
  else ⟨fs.files ++ [(p, c)], fs.chmods⟩

/-- `os.chmod`. -/
def CookieFS.chmod (fs : CookieFS) (p : String) (mode : Nat) : CookieFS :=
  ⟨fs.files, fs.chmods ++ [(p, mode)]⟩

/-- One cookie record, identified by domain, path and name. -/
structure Cookie where
  domain : String
  path : String
  name : String
  value : String
deriving DecidableEq

/-- A `MozillaCookieJar`: optional backing filename and the cookies held. -/
structure CookieJar where
  filename : Option String
  cookies : List Cookie
deriving DecidableEq

/-- `CookieJar.set_cookie`: replace the cookie with the same
(domain, path, name) identity, else append. -/
def CookieJar.set_cookie (cj : CookieJar) (c : Cookie) : CookieJar :=
  if cj.cookies.any (fun d => d.domain == c.domain && d.path == c.path && d.name == c.name) then
    ⟨cj.filename, cj.cookies.map
      (fun d => if d.domain == c.domain && d.path == c.path && d.name == c.name then c else d)⟩
  else ⟨cj.filename, cj.cookies ++ [c]⟩

/-- `_BugzillaCookieCache._build_cookiejar(cookiefile)`, parametrized by the
cookie-file codec: `parseJar` returns `none` exactly when `MozillaCookieJar.
load` would raise `LoadError`, and `serJar` is `MozillaCookieJar.save`'s
serialization. Returns the outcome together with the filesystem after all
side effects performed before returning or raising. -/
def build_cookiejar (parseJar : String → Option (List Cookie))
    (serJar : List Cookie → String) (fs : CookieFS) (cookiefile : Option String) :
    Except String CookieJar × CookieFS :=
  match cookiefile with
  | none => (.ok ⟨none, []⟩, fs)
  | some f =>
    if !(fs.hasFile f) then
      let fs1 := fs.writeFile f ""
      let fs2 := fs1.chmod f 384
      let fs3 := fs2.writeFile f (serJar [])
      (.ok ⟨some f, []⟩, fs3)
    else
      match parseJar (fs.readFile f) with
      | some cs => (.ok ⟨some f, cs⟩, fs)
      | none => (.error ("cookiefile=" ++ f ++ " not in Mozilla format"), fs)

/-- State of a `_BugzillaCookieCache`: `_cookiejar` is `None` until
`set_filename` has been called. -/
structure CookieCache where
  cookiejar : Option CookieJar
deriving DecidableEq

/-- `_BugzillaCookieCache.__init__`. -/
def CookieCache.init : CookieCache := ⟨none⟩

/-- `_BugzillaCookieCache.set_filename(cookiefile)`. -/
def CookieCache.set_filename (parseJar : String → Option (List Cookie))
    (serJar : List Cookie → String) (fs : CookieFS) (cookiefile : Option String) :
    Except String CookieCache × CookieFS :=
  match build_cookiejar parseJar serJar fs cookiefile with
  | (.ok cj, fs1) => (.ok ⟨some cj⟩, fs1)
  | (.error e, fs1) => (.error e, fs1)

/-- `_BugzillaCookieCache.set_cookies(cookies)`: silently return when no jar
is bound; else insert each cookie and save when a filename is bound. -/
def CookieCache.set_cookies (serJar : List Cookie → String) (cache : CookieCache)
    (fs : CookieFS) (cookies : List Cookie) : CookieCache × CookieFS :=
  match cache.cookiejar with
  | none => (cache, fs)
  | some cj =>
    let cj2 := cookies.foldl (fun j c => j.set_cookie c) cj
    match cj2.filename with
    | some f => (⟨some cj2⟩, fs.writeFile f (serJar cj2.cookies))
    | none => (⟨some cj2⟩, fs)

/-! ## Derived notions used by the theorems -/

/-- Left-biased choice on optional values. -/
def oor {β : Type} (a b : Option β) : Option β :=
  match a with
  | some v => some v
  | none => b

/-- The value of key `k` in section `s` of one parsed file. -/
def fileGet (f : ConfigFile) (s k : String) : Option String :=
  ((f.find? (fun p => p.1 == s)).map (fun p => p.2)).bind (fun a => lookupA a k)

/-- The section names of one parsed file. -/
def fileNames (f : ConfigFile) : List String := f.map (fun p => p.1)

/-- Well-formedness of a parsed file, guaranteed by `ConfigParser` (strict
mode forbids duplicate sections and duplicate options within one source):
distinct section names, distinct keys within each section. -/
def FileWF (f : ConfigFile) : Prop :=
  (fileNames f).Nodup ∧ ∀ sa ∈ f, (sa.2.map (fun p => p.1)).Nodup

/-- Every existing file on the filesystem is well-formed. -/
def FsWF (fs : String → Option ConfigFile) : Prop :=
  ∀ p f, fs p = some f → FileWF f

/-! ## Lemmas on `oor` -/

theorem oor_none_left {β : Type} (b : Option β) : oor none b = b := rfl

theorem oor_none_right {β : Type} (a : Option β) : oor a none = a := by
  cases a <;> rfl

theorem oor_assoc {β : Type} (a b c : Option β) : oor (oor a b) c = oor a (oor b c) := by
  cases a <;> rfl

theorem oor_isSome {β : Type} (a b : Option β) :
    (oor a b).isSome = (a.isSome || b.isSome) := by
  cases a <;> simp [oor]

/-! ## Lemmas on association lists -/

theorem lookupA_nil (k : String) : lookupA [] k = none := rfl

theorem findKey_cons (k0 v0 : String) (a : Assoc) (k : String) :
    (((k0, v0) :: a).find? (fun p => p.1 == k))
      = if k0 = k then some (k0, v0) else a.find? (fun p => p.1 == k) := by
  by_cases h : k0 = k
  · subst h
    simp [List.find?]
  · have hb : (k0 == k) = false := by simp [h]
    simp [List.find?, hb, h]

theorem lookupA_cons (k0 v0 : String) (a : Assoc) (k : String) :
    lookupA ((k0, v0) :: a) k = if k0 = k then some v0 else lookupA a k := by
  rw [lookupA, findKey_cons]
  by_cases h : k0 = k <;> simp [h, lookupA]

theorem lookupA_eq_none_of_not_mem (a : Assoc) (k : String)
    (h : k ∉ a.map (fun p => p.1)) : lookupA a k = none := by
  induction a with
  | nil => rfl
  | cons p rest ih =>
    obtain ⟨k0, v0⟩ := p
    rw [lookupA_cons]
    simp only [List.map_cons, List.mem_cons] at h
    push_neg at h
    rw [if_neg (fun hh => h.1 hh.symm), ih h.2]

theorem findKey_isSome (a : Assoc) (k : String) :
    (a.find? (fun p => p.1 == k)).isSome = true ↔ k ∈ a.map (fun p => p.1) := by
  induction a with
  | nil => simp [List.find?]
  | cons p rest ih =>
    obtain ⟨k0, v0⟩ := p
    rw [findKey_cons]
    by_cases h : k0 = k
    · simp [h]
    · simp [h, ih, Ne.symm h]

theorem lookupA_map_overwrite (a : Assoc) (k v k' : String) :
    lookupA (a.map (fun p => if p.1 == k then (p.1, v) else p)) k'
      = if k' = k then (lookupA a k).map (fun _ => v) else lookupA a k' := by
  induction a with
  | nil => by_cases h : k' = k <;> simp [lookupA, List.find?, h]
  | cons p rest ih =>
    obtain ⟨k0, v0⟩ := p
    rw [List.map_cons]
    rw [show ((if (k0 == k) = true then (k0, v) else (k0, v0)) : String × String)
          = (k0, if k0 = k then v else v0) by by_cases h0 : k0 = k <;> simp [h0]]
    simp only [lookupA_cons]
    by_cases hk : k' = k
    · by_cases h0 : k0 = k'
      · have h0k : k0 = k := h0.trans hk
        rw [if_pos h0, if_pos hk, if_pos h0k, if_pos h0k]
        rfl
      · have h0k : ¬ k0 = k := fun hh => h0 (hh.trans hk.symm)
        rw [if_neg h0, if_pos hk, if_neg h0k, ih, if_pos hk]
    · by_cases h0 : k0 = k'
      · have h0k : ¬ k0 = k := fun hh => hk (h0.symm.trans hh)
        rw [if_neg hk, if_pos h0, if_neg h0k, if_pos h0]
      · rw [if_neg hk, if_neg h0, if_neg h0, ih, if_neg hk]

theorem lookupA_append_single (a : Assoc) (k v k' : String) :
    lookupA (a ++ [(k, v)]) k'
      = oor (lookupA a k') (if k' = k then some v else none) := by
  induction a with
  | nil =>
    by_cases h : k = k'
    · subst h
      simp [lookupA, List.find?, oor]
    · rw [List.nil_append, lookupA_cons, if_neg h, lookupA_nil, oor_none_left,
        if_neg (fun hh => h hh.symm)]
  | cons p rest ih =>
    obtain ⟨k0, v0⟩ := p
    rw [List.cons_append, lookupA_cons, lookupA_cons]
    by_cases h0 : k0 = k'
    · rw [if_pos h0, if_pos h0]
      rfl
    · rw [if_neg h0, if_neg h0, ih]

theorem lookupA_setKey (a : Assoc) (k v k' : String) :
    lookupA (setKey a k v) k' = if k' = k then some v else lookupA a k' := by
  unfold setKey
  by_cases hs : (a.find? (fun p => p.1 == k)).isSome = true
  · rw [if_pos hs, lookupA_map_overwrite]
    by_cases hk : k' = k
    · obtain ⟨p, hp⟩ := Option.isSome_iff_exists.mp hs
      rw [if_pos hk, if_pos hk, lookupA, hp]
      rfl
    · rw [if_neg hk, if_neg hk]
  · rw [if_neg hs, lookupA_append_single]
    have hnone : a.find? (fun p => p.1 == k) = none :=
      Option.not_isSome_iff_eq_none.mp (by simpa using hs)
    by_cases hk : k' = k
    · rw [if_pos hk, if_pos hk, hk, lookupA, hnone, Option.map_none', oor_none_left]
    · rw [if_neg hk, if_neg hk, oor_none_right]

theorem lookupA_removeKey (a : Assoc) (k k' : String) :
    lookupA (removeKey a k) k' = if k' = k then none else lookupA a k' := by
  induction a with
  | nil => by_cases h : k' = k <;> simp [removeKey, lookupA, List.find?, h]
  | cons p rest ih =>
    obtain ⟨k0, v0⟩ := p
    unfold removeKey at ih ⊢
    by_cases h0 : k0 = k
    · subst h0
      rw [List.filter_cons_of_neg (by simp), ih, lookupA_cons]
      by_cases hk : k' = k0
      · rw [if_pos hk, if_pos hk]
      · rw [if_neg hk, if_neg hk, if_neg (fun hh => hk hh.symm)]
    · rw [List.filter_cons_of_pos (by simp [h0]), lookupA_cons, lookupA_cons, ih]
      by_cases hh : k0 = k'
      · rw [if_pos hh, if_neg (fun hc : k' = k => h0 (hh.trans hc)), if_pos hh]
      · rw [if_neg hh, if_neg hh]

/-! ## Lemmas on stores -/

theorem findMap_cons {β : Type} (s0 : String) (b0 : β) (l : List (String × β)) (s : String) :
    (((s0, b0) :: l).find? (fun p => p.1 == s)).map (fun p => p.2)
      = if s0 = s then some b0 else (l.find? (fun p => p.1 == s)).map (fun p => p.2) := by
  by_cases h : s0 = s
  · subst h
    simp [List.find?]
  · have hb : (s0 == s) = false := by simp [h]
    simp [List.find?, hb, h]

theorem findMap_update {β : Type} (l : List (String × β)) (s : String) (g : β → β) (s' : String) :
    ((l.map (fun p => if p.1 == s then (p.1, g p.2) else p)).find?
        (fun p => p.1 == s')).map (fun p => p.2)
      = if s' = s then ((l.find? (fun p => p.1 == s)).map (fun p => p.2)).map g
        else (l.find? (fun p => p.1 == s')).map (fun p => p.2) := by
  induction l with
  | nil => by_cases h : s' = s <;> simp [List.find?, h]
  | cons p rest ih =>
    obtain ⟨s0, b0⟩ := p
    rw [List.map_cons]
    rw [show ((if (s0 == s) = true then (s0, g b0) else (s0, b0)) : String × β)
          = (s0, if s0 = s then g b0 else b0) by by_cases h0 : s0 = s <;> simp [h0]]
    simp only [findMap_cons]
    by_cases hk : s' = s
    · by_cases h0 : s0 = s'
      · have h0k : s0 = s := h0.trans hk
        rw [if_pos h0, if_pos hk, if_pos h0k, if_pos h0k]
        rfl
      · have h0k : ¬ s0 = s := fun hh => h0 (hh.trans hk.symm)
        rw [if_neg h0, if_pos hk, if_neg h0k, ih, if_pos hk]
    · by_cases h0 : s0 = s'
      · have h0k : ¬ s0 = s := fun hh => hk (h0.symm.trans hh)
        rw [if_neg hk, if_pos h0, if_neg h0k, if_pos h0]
      · rw [if_neg hk, if_neg h0, if_neg h0, ih, if_neg hk]

theorem findMap_append_single {β : Type} (l : List (String × β)) (s : String) (b : β)
    (s' : String) :
    ((l ++ [(s, b)]).find? (fun p => p.1 == s')).map (fun p => p.2)
      = oor ((l.find? (fun p => p.1 == s')).map (fun p => p.2))
          (if s' = s then some b else none) := by
  induction l with
  | nil =>
    by_cases h : s = s'
    · subst h
      simp [List.find?, oor]
    · have h2 : ¬ s' = s := fun hh => h hh.symm
      rw [List.nil_append, findMap_cons, if_neg h]
      simp [List.find?, oor, h2]
  | cons p rest ih =>
    obtain ⟨s0, b0⟩ := p
    rw [List.cons_append, findMap_cons, findMap_cons]
    by_cases h0 : s0 = s'
    · rw [if_pos h0, if_pos h0]
      rfl
    · rw [if_neg h0, if_neg h0, ih]

theorem map_fst_update {β : Type} (l : List (String × β)) (s : String) (g : β → β) :
    (l.map (fun p => if p.1 == s then (p.1, g p.2) else p)).map (fun p => p.1)
      = l.map (fun p => p.1) := by
  induction l with
  | nil => rfl
  | cons p rest ih =>
    obtain ⟨s0, b0⟩ := p
    rw [List.map_cons, List.map_cons, List.map_cons]
    by_cases h : s0 = s
    · rw [show ((if (s0 == s) = true then (s0, g b0) else (s0, b0)) : String × β)
            = (s0, g b0) by simp [h]]
      exact congrArg (fun t => s0 :: t) ih
    · rw [show ((if (s0 == s) = true then (s0, g b0) else (s0, b0)) : String × β)
            = (s0, b0) by simp [h]]
      exact congrArg (fun t => s0 :: t) ih

theorem memFst_iff_findIsSome {β : Type} (l : List (String × β)) (s : String) :
    s ∈ l.map (fun p => p.1) ↔ (l.find? (fun p => p.1 == s)).isSome = true := by
  induction l with
  | nil => simp [List.find?]
  | cons p rest ih =>
    obtain ⟨s0, b0⟩ := p
    rw [show ((s0, b0) :: rest).find? (fun p => p.1 == s)
          = if s0 = s then some (s0, b0) else rest.find? (fun p => p.1 == s) by
        by_cases h : s0 = s
        · subst h
          simp [List.find?]
        · have hb : (s0 == s) = false := by simp [h]
          simp [List.find?, hb, h]]
    by_cases h : s0 = s
    · simp [h]
    · have h2 : ¬ s = s0 := fun hh => h hh.symm
      simp [h, h2, ih]

theorem getSec_mapSec (st : Store) (s : String) (g : Assoc → Assoc) (s' : String) :
    (mapSec st s g).getSec s'
      = if s' = s then (st.getSec s).map g else st.getSec s' :=
  findMap_update st.sections s g s'

theorem names_mapSec (st : Store) (s : String) (g : Assoc → Assoc) :
    (mapSec st s g).names = st.names :=
  map_fst_update st.sections s g

theorem getSec_addSection (st : Store) (s s' : String) :
    (st.addSection s).getSec s'
      = oor (st.getSec s') (if s' = s then some [] else none) :=
  findMap_append_single st.sections s [] s'

theorem hasSection_eq_isSome (st : Store) (s : String) :
    st.hasSection s = (st.getSec s).isSome := by
  have hm := memFst_iff_findIsSome st.sections s
  show List.elem s (st.sections.map (fun p => p.1))
    = ((st.sections.find? (fun p => p.1 == s)).map (fun p => p.2)).isSome
  rcases hf : st.sections.find? (fun p => p.1 == s) with _ | p
  · rw [hf] at hm
    have hnm : ¬ s ∈ st.sections.map (fun p => p.1) := fun h => by simpa using hm.mp h
    simp only [List.elem_iff, hf]
    simp only [Option.map_none', Option.isSome_none]
    rw [← Bool.not_eq_true, List.elem_iff]
    exact hnm
  · rw [hf] at hm
    have hmem : s ∈ st.sections.map (fun p => p.1) := hm.mpr rfl
    simp only [hf, Option.map_some', Option.isSome_some]
    rw [List.elem_iff]
    exact hmem

theorem hasSection_mapSec (st : Store) (s : String) (g : Assoc → Assoc) (s' : String) :
    (mapSec st s g).hasSection s' = st.hasSection s' := by
  show List.elem s' (mapSec st s g).names = List.elem s' st.names
  rw [names_mapSec]

theorem get_mapSec (st : Store) (s : String) (g : Assoc → Assoc) (s' k : String) :
    (mapSec st s g).get s' k
      = if s' = s then ((st.getSec s).map g).bind (fun a => lookupA a k)
        else st.get s' k := by
  rw [Store.get, getSec_mapSec]
  by_cases h : s' = s
  · rw [if_pos h, if_pos h]
  · rw [if_neg h, if_neg h, Store.get]

theorem get_setOpt_self (st : Store) (s k v : String) (h : st.hasSection s = true) :
    (st.setOpt s k v).get s k = some v := by
  rw [Store.setOpt, get_mapSec, if_pos rfl]
  have hsome : (st.getSec s).isSome = true := by rw [← hasSection_eq_isSome]; exact h
  obtain ⟨a, ha⟩ := Option.isSome_iff_exists.mp hsome
  rw [ha]
  show lookupA (setKey a k v) k = some v
  rw [lookupA_setKey, if_pos rfl]

theorem get_setOpt_other (st : Store) (s k v s' k' : String)
    (h : ¬(s' = s ∧ k' = k)) :
    (st.setOpt s k v).get s' k' = st.get s' k' := by
  rw [Store.setOpt, get_mapSec]
  by_cases hs : s' = s
  · rw [if_pos hs]
    have hk : ¬ k' = k := fun hh => h ⟨hs, hh⟩
    cases ha : st.getSec s with
    | none => rw [Store.get, hs, ha] ; rfl
    | some a =>
      rw [Store.get, hs, ha]
      show lookupA (setKey a k v) k' = lookupA a k'
      rw [lookupA_setKey, if_neg hk]
  · rw [if_neg hs]

theorem get_removeOpt_self (st : Store) (s k : String) :
    (st.removeOpt s k).get s k = none := by
  rw [Store.removeOpt, get_mapSec, if_pos rfl]
  cases ha : st.getSec s with
  | none => rfl
  | some a =>
    show lookupA (removeKey a k) k = none
    rw [lookupA_removeKey, if_pos rfl]

theorem get_removeOpt_other (st : Store) (s k s' k' : String)
    (h : ¬(s' = s ∧ k' = k)) :
    (st.removeOpt s k).get s' k' = st.get s' k' := by
  rw [Store.removeOpt, get_mapSec]
  by_cases hs : s' = s
  · rw [if_pos hs]
    have hk : ¬ k' = k := fun hh => h ⟨hs, hh⟩
    cases ha : st.getSec s with
    | none => rw [Store.get, hs, ha] ; rfl
    | some a =>
      rw [Store.get, hs, ha]
      show lookupA (removeKey a k) k' = lookupA a k'
      rw [lookupA_removeKey, if_neg hk]
  · rw [if_neg hs]

/-! ## Lemmas on `ensureSection` -/

theorem ensure_of_hasSection (st : Store) (s : String) (h : st.hasSection s = true) :
    ensureSection st s = st := by
  rw [ensureSection, if_pos h]

theorem hasSection_addSection (st : Store) (s s' : String) :
    (st.addSection s).hasSection s'
      = (st.hasSection s' || (decide (s' = s))) := by
  rw [hasSection_eq_isSome, getSec_addSection, oor_isSome, hasSection_eq_isSome]
  by_cases h : s' = s <;> simp [h]

theorem hasSection_ensure_self (st : Store) (s : String) :
    (ensureSection st s).hasSection s = true := by
  rw [ensureSection]
  by_cases h : st.hasSection s = true
  · rw [if_pos h]
    exact h
  · rw [if_neg h, hasSection_addSection]
    simp

theorem hasSection_ensure (st : Store) (s s' : String) :
    (ensureSection st s).hasSection s'
      = (st.hasSection s' || (decide (s' = s) && ensureSection st s != st)) := by
  rw [ensureSection]
  by_cases h : st.hasSection s = true
  · simp [if_pos h, h]
  · rw [if_neg h, hasSection_addSection]
    by_cases hs : s' = s
    · subst hs
      simp [h]
      intro hcontra
      have : (st.addSection s').hasSection s' = st.hasSection s' := by rw [hcontra]
      rw [hasSection_addSection] at this
      simp at this
      exact h (by simp [this])
    · simp [hs]

theorem get_ensure (st : Store) (s s' k : String) :
    (ensureSection st s).get s' k = st.get s' k := by
  rw [ensureSection]
  by_cases h : st.hasSection s = true
  · rw [if_pos h]
  · rw [if_neg h, Store.get, getSec_addSection]
    by_cases hs : s' = s
    · subst hs
      have hnone : st.getSec s' = none := by
        rcases hg : st.getSec s' with _ | a
        · rfl
        · exact absurd (by rw [hasSection_eq_isSome, hg]; rfl) h
      rw [if_pos rfl, hnone, oor_none_left, Store.get, hnone]
      rfl
    · rw [if_neg hs, oor_none_right, Store.get]

/-! ## Lemmas on merging files into a store -/

theorem hasSection_iff_mem (st : Store) (s : String) :
    st.hasSection s = true ↔ s ∈ st.names :=
  List.elem_iff

theorem lookupA_updInto (base upd : Assoc) (k : String)
    (h : (upd.map (fun p => p.1)).Nodup) :
    lookupA (updInto base upd) k = oor (lookupA upd k) (lookupA base k) := by
  induction upd generalizing base with
  | nil => rfl
  | cons kv rest ih =>
    obtain ⟨k0, v0⟩ := kv
    rw [List.map_cons, List.nodup_cons] at h
    show lookupA (updInto (setKey base k0 v0) rest) k = _
    rw [ih (setKey base k0 v0) h.2, lookupA_cons]
    by_cases hk : k0 = k
    · subst hk
      rw [lookupA_eq_none_of_not_mem rest k0 h.1, oor_none_left, lookupA_setKey,
        if_pos rfl, if_pos rfl]
      rfl
    · rw [if_neg hk, lookupA_setKey, if_neg (fun hh : k = k0 => hk hh.symm)]

theorem get_mergeSectionInto (st : Store) (s : String) (a : Assoc) (s' k : String)
    (ha : (a.map (fun p => p.1)).Nodup) :
    (mergeSectionInto st s a).get s' k
      = if s' = s then oor (lookupA a k) (st.get s k) else st.get s' k := by
  rw [mergeSectionInto]
  by_cases h : st.hasSection s = true
  · rw [if_pos h, get_mapSec]
    by_cases hs : s' = s
    · rw [if_pos hs, if_pos hs]
      obtain ⟨b, hb⟩ := Option.isSome_iff_exists.mp (by rw [← hasSection_eq_isSome]; exact h)
      rw [hb]
      show lookupA (updInto b a) k = oor (lookupA a k) (st.get s k)
      rw [lookupA_updInto b a k ha, Store.get, hb]
      rfl
    · rw [if_neg hs, if_neg hs]
  · rw [if_neg h]
    show ((Store.mk (st.sections ++ [(s, updInto [] a)])).getSec s').bind
        (fun b => lookupA b k) = _
    rw [show (Store.mk (st.sections ++ [(s, updInto [] a)])).getSec s'
          = oor (st.getSec s') (if s' = s then some (updInto [] a) else none)
        from findMap_append_single st.sections s (updInto [] a) s']
    by_cases hs : s' = s
    · have hnone : st.getSec s = none := by
        rcases hg : st.getSec s with _ | b
        · rfl
        · exact absurd (by rw [hasSection_eq_isSome, hg]; rfl) h
      rw [if_pos hs, if_pos hs, hs, hnone, oor_none_left, Store.get, hnone]
      show lookupA (updInto [] a) k = oor (lookupA a k) none
      rw [lookupA_updInto [] a k ha, lookupA_nil, oor_none_right]
    · rw [if_neg hs, if_neg hs, oor_none_right, Store.get]

theorem fileGet_cons (s0 : String) (a0 : Assoc) (rest : ConfigFile) (s k : String) :
    fileGet ((s0, a0) :: rest) s k
      = if s0 = s then lookupA a0 k else fileGet rest s k := by
  rw [fileGet, findMap_cons]
  by_cases h : s0 = s
  · rw [if_pos h, if_pos h]
    rfl
  · rw [if_neg h, if_neg h, fileGet]

theorem fileGet_eq_none_of_not_mem (f : ConfigFile) (s k : String)
    (h : s ∉ fileNames f) : fileGet f s k = none := by
  have hnone : f.find? (fun p => p.1 == s) = none := by
    rcases hf : f.find? (fun p => p.1 == s) with _ | p
    · exact hf
    · exact absurd ((memFst_iff_findIsSome f s).mpr (by rw [hf]; rfl)) h
  rw [fileGet, hnone]
  rfl

theorem get_mergeFile (st : Store) (f : ConfigFile) (s k : String) (hwf : FileWF f) :
    (mergeFile st f).get s k = oor (fileGet f s k) (st.get s k) := by
  induction f generalizing st with
  | nil => rfl
  | cons sa rest ih =>
    obtain ⟨s0, a0⟩ := sa
    obtain ⟨hnd, hkeys⟩ := hwf
    rw [show fileNames ((s0, a0) :: rest) = s0 :: fileNames rest from rfl,
      List.nodup_cons] at hnd
    have hwfr : FileWF rest := ⟨hnd.2, fun sa hsa => hkeys sa (List.mem_cons_of_mem _ hsa)⟩
    have ha0 : (a0.map (fun p => p.1)).Nodup := hkeys (s0, a0) (List.mem_cons_self _ _)
    show (mergeFile (mergeSectionInto st s0 a0) rest).get s k = _
    rw [ih (mergeSectionInto st s0 a0) hwfr, get_mergeSectionInto st s0 a0 s k ha0,
      fileGet_cons]
    by_cases hs : s = s0
    · subst hs
      rw [if_pos rfl, if_pos rfl, fileGet_eq_none_of_not_mem rest _ k hnd.1, oor_none_left]
    · rw [if_neg hs, if_neg (fun hh : s0 = s => hs hh.symm)]

theorem findSomeP_append {β γ : Type} (l1 l2 : List β) (g : β → Option γ) :
    (l1 ++ l2).findSome? g = oor (l1.findSome? g) (l2.findSome? g) := by
  induction l1 with
  | nil => rfl
  | cons x rest ih =>
    rw [List.cons_append]
    cases hgx : g x
    · simp [List.findSome?, hgx, ih, oor]
    · simp [List.findSome?, hgx, oor]

theorem findSomeP_single {β γ : Type} (x : β) (g : β → Option γ) :
    [x].findSome? g = g x := by
  cases hgx : g x <;> simp [List.findSome?, hgx]

theorem get_readFold (fs : String → Option ConfigFile) (hwf : FsWF fs)
    (ps : List String) (st : Store) (s k : String) :
    (ps.foldl (fun acc p => match fs p with | some f => mergeFile acc f | none => acc)
        st).get s k
      = oor ((ps.filterMap fs).reverse.findSome? (fun f => fileGet f s k))
          (st.get s k) := by
  induction ps generalizing st with
  | nil => rfl
  | cons p rest ih =>
    rw [List.foldl_cons]
    rcases hp : fs p with _ | f
    · simp only [hp]
      rw [ih st, List.filterMap_cons_none hp]
    · simp only [hp]
      rw [ih (mergeFile st f), get_mergeFile st f s k (hwf p f hp),
        List.filterMap_cons_some hp, List.reverse_cons, findSomeP_append,
        findSomeP_single, oor_assoc]

theorem get_readFiles (fs : String → Option ConfigFile) (hwf : FsWF fs)
    (ps : List String) (s k : String) :
    (readFiles fs ps).get s k
      = (ps.filterMap fs).reverse.findSome? (fun f => fileGet f s k) := by
  rw [readFiles, get_readFold fs hwf ps ⟨[]⟩ s k]
  rw [show (Store.mk []).get s k = none from rfl, oor_none_right]

/-! ## Membership of section names after merging -/

theorem names_append_single (l : List (String × Assoc)) (s : String) (a : Assoc) :
    (Store.mk (l ++ [(s, a)])).names = (Store.mk l).names ++ [s] := by
  show (l ++ [(s, a)]).map (fun p => p.1) = l.map (fun p => p.1) ++ [s]
  rw [List.map_append]
  rfl

theorem mem_names_mergeSectionInto (st : Store) (s : String) (a : Assoc) (x : String)
    (h : x ∈ st.names) : x ∈ (mergeSectionInto st s a).names := by
  rw [mergeSectionInto]
  by_cases hh : st.hasSection s = true
  · rw [if_pos hh, names_mapSec]
    exact h
  · rw [if_neg hh]
    rw [show (⟨st.sections ++ [(s, updInto [] a)]⟩ : Store)
          = Store.mk (st.sections ++ [(s, updInto [] a)]) from rfl,
      names_append_single]
    exact List.mem_append_left _ h

theorem self_mem_names_mergeSectionInto (st : Store) (s : String) (a : Assoc) :
    s ∈ (mergeSectionInto st s a).names := by
  rw [mergeSectionInto]
  by_cases hh : st.hasSection s = true
  · rw [if_pos hh, names_mapSec]
    exact (hasSection_iff_mem st s).mp hh
  · rw [if_neg hh]
    rw [show (⟨st.sections ++ [(s, updInto [] a)]⟩ : Store)
          = Store.mk (st.sections ++ [(s, updInto [] a)]) from rfl,
      names_append_single]
    exact List.mem_append_right _ (List.mem_singleton.mpr rfl)

theorem mem_names_mergeFile (st : Store) (f : ConfigFile) (x : String)
    (h : x ∈ st.names) : x ∈ (mergeFile st f).names := by
  induction f generalizing st with
  | nil => exact h
  | cons sa rest ih =>
    exact ih (mergeSectionInto st sa.1 sa.2) (mem_names_mergeSectionInto st sa.1 sa.2 x h)

theorem mem_fileNames_mergeFile (st : Store) (f : ConfigFile) (x : String)
    (h : x ∈ fileNames f) : x ∈ (mergeFile st f).names := by
  induction f generalizing st with
  | nil => exact absurd h (List.not_mem_nil x)
  | cons sa rest ih =>
    rcases List.mem_cons.mp h with hx | hx
    · show x ∈ (mergeFile (mergeSectionInto st sa.1 sa.2) rest).names
      exact mem_names_mergeFile _ rest x
        (hx ▸ self_mem_names_mergeSectionInto st sa.1 sa.2)
    · exact ih (mergeSectionInto st sa.1 sa.2) hx

/-! ## The specification's description of section selection -/

/-- The matching rule as the specification words it: a name without the
separator `/` matches only by equality with the URL host; a name containing
`/` matches only as a literal substring of the full URL. -/
def specSectionMatch (urlhost url name : String) : Bool :=
  if name.toList.contains '/' then isSubstring name.toList url.toList
  else name == urlhost

/-- The specification's `sectionFor`: walk the section names in
lexicographic sort order, select the first matching one and return all its
pairs, or an empty mapping when none matches. -/
def specSectionFor (st : Store) (url : String) : Assoc :=
  match (sortedSections st).find? (specSectionMatch (parse_hostname url) url) with
  | some n => (st.getSec n).getD []
  | none => []

theorem parseLoop_eq_find (urlhost url : String) (l : List String)
    (h : ∀ n ∈ l, n ≠ "") :
    parseLoop urlhost url l
      = ((l.find? (specSectionMatch urlhost url)).getD "") := by
  induction l with
  | nil => rfl
  | cons sh rest ih =>
    have hsh : sh ≠ "" := h sh (List.mem_cons_self _ _)
    have hrest : ∀ n ∈ rest, n ≠ "" := fun n hn => h n (List.mem_cons_of_mem _ hn)
    by_cases hc : sh.toList.contains '/' = true
    · have hcm : '/' ∈ sh.data := List.elem_iff.mp hc
      by_cases hm : isSubstring sh.data url.data = true
      · simp [parseLoop, specSectionMatch, List.find?, hcm, hm, hsh]
      · simp [parseLoop, specSectionMatch, List.find?, hcm, hm, ih hrest]
    · by_cases hm : sh = urlhost
      · subst hm
        have hc2 : '/' ∉ sh.data := fun hmem => hc (List.elem_iff.mpr hmem)
        simp [parseLoop, specSectionMatch, List.find?, hc2, hsh]
      · have hc2 : '/' ∉ sh.data := fun hmem => hc (List.elem_iff.mpr hmem)
        have hb : (sh == urlhost) = false := by simp [hm]
        simp [parseLoop, specSectionMatch, List.find?, hc2, hm, hb, ih hrest]

/-! ## Evaluation lemmas for the token cache -/

/-- The store update performed by the non-trivial branch of `set_value`:
`None` removes the `token` key, a string sets it. -/
def tokenUpd (st : Store) (d : String) (v : Option String) : Store :=
  match v with
  | none => st.removeOpt d "token"
  | some w => st.setOpt d "token" w

theorem ensure_idem (st : Store) (s : String) :
    ensureSection (ensureSection st s) s = ensureSection st s :=
  ensure_of_hasSection _ _ (hasSection_ensure_self st s)

theorem hasSection_tokenUpd (st : Store) (d : String) (v : Option String) (s' : String) :
    (tokenUpd st d v).hasSection s' = st.hasSection s' := by
  cases v
  · exact hasSection_mapSec st d _ s'
  · exact hasSection_mapSec st d _ s'

theorem get_tokenUpd_self (st : Store) (d : String) (v : Option String)
    (h : st.hasSection d = true) :
    (tokenUpd st d v).get d "token" = v := by
  cases v with
  | none => exact get_removeOpt_self st d "token"
  | some w => exact get_setOpt_self st d "token" w h

theorem get_value_eval (fn : Option String) (st : Store) (url : String) :
    TokenCache.get_value ⟨fn, some st⟩ url
      = .ok ((ensureSection st (netlocOf url)).get (netlocOf url) "token",
          ⟨fn, some (ensureSection st (netlocOf url))⟩) := rfl

theorem set_value_eval (fn : Option String) (st : Store) (url : String)
    (v : Option String) :
    TokenCache.set_value ⟨fn, some st⟩ url v
      = (if (ensureSection st (netlocOf url)).get (netlocOf url) "token" = v then
          .ok ((⟨fn, some (ensureSection st (netlocOf url))⟩ : TokenCache), [])
        else
          .ok ((⟨fn, some (tokenUpd
                (ensureSection (ensureSection st (netlocOf url)) (netlocOf url))
                (netlocOf url) v)⟩ : TokenCache),
            writeList fn (tokenUpd
                (ensureSection (ensureSection st (netlocOf url)) (netlocOf url))
                (netlocOf url) v))) := by
  simp only [TokenCache.set_value, get_value_eval, TokenCache.get_domain]
  by_cases h : (ensureSection st (netlocOf url)).get (netlocOf url) "token" = v
  · rw [if_pos h, if_pos h]
  · rw [if_neg h, if_neg h]
    rfl

theorem set_value_result (fn : Option String) (st : Store) (url : String)
    (v : Option String)
    (hne : ¬ (ensureSection st (netlocOf url)).get (netlocOf url) "token" = v) :
    TokenCache.set_value ⟨fn, some st⟩ url v
      = .ok (⟨fn, some (tokenUpd (ensureSection st (netlocOf url)) (netlocOf url) v)⟩,
          writeList fn (tokenUpd (ensureSection st (netlocOf url)) (netlocOf url) v)) := by
  rw [set_value_eval, if_neg hne, ensure_idem]

theorem set_value_isOk (fn : Option String) (st : Store) (url : String)
    (v : Option String) :
    ((TokenCache.set_value ⟨fn, some st⟩ url v).toOption).isSome = true := by
  rw [set_value_eval]
  by_cases h : (ensureSection st (netlocOf url)).get (netlocOf url) "token" = v
  · rw [if_pos h]
    rfl
  · rw [if_neg h]
    rfl

/-! ## The claims -/

/-- C1: for every configured store (section names read from bugzillarc files
are nonempty) and every URL, `parse` walks the section names in
lexicographic sort order and selects the first matching one, where a name
without `/` matches only by equality with the URL host and a name
containing `/` matches only as a literal substring of the full URL; with no
match an empty mapping is returned, otherwise all pairs of the first
matching section. -/
theorem parse_selects_first_sorted_match (rc : BugzillaRCFile) (url : String)
    (hne : ∀ n ∈ rc.cfg.names, n ≠ "") :
    rc.parse url = specSectionFor rc.cfg url := by
  have hmem : ∀ n ∈ sortedSections rc.cfg, n ≠ "" := fun n hn =>
    hne n ((List.perm_insertionSort (fun a b => a ≤ b) rc.cfg.names).mem_iff.mp hn)
  simp only [BugzillaRCFile.parse, specSectionFor]
  rw [parseLoop_eq_find _ _ _ hmem]
  rcases hf : (sortedSections rc.cfg).find? (specSectionMatch (parse_hostname url) url)
    with _ | n
  · rfl
  · have hn : n ≠ "" := hmem n (List.mem_of_find?_eq_some hf)
    rw [Option.getD_some, if_neg hn]

/-- Witness for C1: two sections `a.com` and `a.com/sub`; for the URL
`http://a.com/sub/x` both match and the lexicographically first one,
`a.com`, is selected by both the code and the specification. -/
theorem parse_selects_first_sorted_match_witness :
    (∀ n ∈ (Store.mk [("a.com", [("x", "1")]), ("a.com/sub", [("y", "2")])]).names, n ≠ "")
    ∧ (BugzillaRCFile.mk ⟨[("a.com", [("x", "1")]), ("a.com/sub", [("y", "2")])]⟩ []).parse
        "http://a.com/sub/x"
      = specSectionFor ⟨[("a.com", [("x", "1")]), ("a.com/sub", [("y", "2")])]⟩
          "http://a.com/sub/x" :=
  ⟨by decide, parse_selects_first_sorted_match
    ⟨⟨[("a.com", [("x", "1")]), ("a.com/sub", [("y", "2")])]⟩, []⟩
    "http://a.com/sub/x" (by decide)⟩

/-- C2 counterexample: the token cache keys on `urlparse(url)[1]` (the
netloc alone), not on `_parse_hostname`; a token stored via `http://h` is
not found via the bare `h` (which reads the empty-netloc section ""),
although `_parse_hostname` maps both URLs to `h`. -/
theorem tokencache_bare_host_misses :
    parse_hostname "http://h" = "h" ∧ parse_hostname "h" = "h"
    ∧ TokenCache.set_value (⟨none, some ⟨[]⟩⟩ : TokenCache) "http://h" (some "tok")
        = .ok (⟨none, some ⟨[("h", [("token", "tok")])]⟩⟩, [])
    ∧ TokenCache.get_value (⟨none, some ⟨[("h", [("token", "tok")])]⟩⟩ : TokenCache) "h"
        = .ok (none, ⟨none, some ⟨[("h", [("token", "tok")]), ("", [])]⟩⟩)
    ∧ TokenCache.get_value (⟨none, some ⟨[("h", [("token", "tok")])]⟩⟩ : TokenCache)
        "http://h"
        = .ok (some "tok", ⟨none, some ⟨[("h", [("token", "tok")])]⟩⟩) :=
  ⟨rfl, rfl, rfl, rfl, rfl⟩

/-- C2 amended: `_get_domain` uses the netloc component of the URL as the
per-domain key (an absent section is created); for a bare hostname the
netloc is empty, so `h` and `http://h` address different entries, even
though `_parse_hostname` (used by the rc file and the api-key writer) gives
`h` for both. -/
theorem tokencache_key_is_netloc (fn : Option String) (st : Store) (url : String) :
    (TokenCache.get_domain ⟨fn, some st⟩ url).map (fun p => p.1) = .ok (netlocOf url)
    ∧ netlocOf "http://h" = "h" ∧ netlocOf "h" = ""
    ∧ parse_hostname "http://h" = "h" ∧ parse_hostname "h" = "h" :=
  ⟨rfl, rfl, rfl, rfl, rfl⟩

/-- C9: `set_cookies` on a cookie cache whose `set_filename` was never
called (so `_cookiejar` is still `None`) returns silently for every input:
no error, no state change, no file touched. -/
theorem set_cookies_unbound_noop (serJar : List Cookie → String) (fs : CookieFS)
    (cookies : List Cookie) :
    CookieCache.set_cookies serJar CookieCache.init fs cookies
      = (CookieCache.init, fs) := rfl

/-- C10: `get_value` and `set_value` on a freshly constructed token cache
fail (the `None` parser has no methods); once `set_filename` has run, the
parser exists and both operations always return normally. -/
theorem tokencache_methods_require_set_filename :
    (∀ url, TokenCache.get_value TokenCache.init url = .error attrError)
    ∧ (∀ url v, TokenCache.set_value TokenCache.init url v = .error attrError)
    ∧ (∀ fs fn url,
        ((TokenCache.set_filename fs fn).get_value url).toOption.isSome = true)
    ∧ (∀ fs fn url v,
        ((TokenCache.set_filename fs fn).set_value url v).toOption.isSome = true) := by
  refine ⟨fun url => rfl, fun url v => rfl, fun fs fn url => rfl, fun fs fn url v => ?_⟩
  exact set_value_isOk fn _ url v

/-- C4 counterexample: `set_value(url, "")` with a stored token does not
remove the `token` key — only `None` removes; the empty string is stored
like any other value and a subsequent `get_value` returns it, not "no
value". -/
theorem token_set_empty_string_keeps_key :
    TokenCache.set_value (⟨none, some ⟨[("h", [("token", "tok")])]⟩⟩ : TokenCache)
        "http://h" (some "")
      = .ok (⟨none, some ⟨[("h", [("token", "")])]⟩⟩, [])
    ∧ TokenCache.get_value (⟨none, some ⟨[("h", [("token", "")])]⟩⟩ : TokenCache)
        "http://h"
      = .ok (some "", ⟨none, some ⟨[("h", [("token", "")])]⟩⟩)
    ∧ lookupA [("token", "")] "token" = some "" :=
  ⟨rfl, rfl, rfl⟩

/-- C4 amended: `set_value(url, None)` (value absent) leaves the netloc's
section without a `token` key and a subsequent `get_value(url)` returns no
value; an empty string is not removal but an ordinary stored value. -/
theorem token_set_none_removes (fn : Option String) (st : Store) (url : String) :
    ∃ tc2 w, TokenCache.set_value ⟨fn, some st⟩ url none = .ok (tc2, w)
      ∧ (tc2.get_value url).map (fun p => p.1) = .ok none
      ∧ (tc2.cfg.getD ⟨[]⟩).get (netlocOf url) "token" = none := by
  by_cases hcur : (ensureSection st (netlocOf url)).get (netlocOf url) "token" = none
  · refine ⟨⟨fn, some (ensureSection st (netlocOf url))⟩, [], ?_, ?_, ?_⟩
    · rw [set_value_eval, if_pos hcur]
    · rw [get_value_eval, ensure_idem, hcur]
      rfl
    · exact hcur
  · refine ⟨⟨fn, some (tokenUpd (ensureSection st (netlocOf url)) (netlocOf url) none)⟩,
      writeList fn (tokenUpd (ensureSection st (netlocOf url)) (netlocOf url) none),
      set_value_result fn st url none hcur, ?_, ?_⟩
    · have hhas : (tokenUpd (ensureSection st (netlocOf url)) (netlocOf url)
          none).hasSection (netlocOf url) = true := by
        rw [hasSection_tokenUpd]
        exact hasSection_ensure_self st (netlocOf url)
      rw [get_value_eval, ensure_of_hasSection _ _ hhas,
        get_tokenUpd_self _ _ _ (hasSection_ensure_self st (netlocOf url))]
      rfl
    · exact get_tokenUpd_self _ _ none (hasSection_ensure_self st (netlocOf url))

/-- C7 counterexample: `set_value(url, None)` when the current value already
equals `None` does change memory when the netloc's section does not exist
yet: the `get_value` lookup inside `set_value` creates an empty section
before the early return (the file is still not written). -/
theorem token_set_same_value_changes_memory :
    TokenCache.get_value (⟨none, some ⟨[]⟩⟩ : TokenCache) "http://h"
      = .ok (none, ⟨none, some ⟨[("h", [])]⟩⟩)
    ∧ TokenCache.set_value (⟨none, some ⟨[]⟩⟩ : TokenCache) "http://h" none
      = .ok (⟨none, some ⟨[("h", [])]⟩⟩, [])
    ∧ (⟨none, some ⟨[("h", [])]⟩⟩ : TokenCache) ≠ (⟨none, some ⟨[]⟩⟩ : TokenCache) :=
  ⟨rfl, rfl, by decide⟩

/-- C7 amended: `set_value` with the currently stored value performs no file
write and changes the parser state only by the section-creating lookup
(`ensureSection`; no change at all when the section already exists); and a
second `set_value` with the same value is a complete no-op with no write,
so two consecutive identical `set_value` calls write the file at most
once. -/
theorem token_set_value_no_redundant_write (fn : Option String) (st : Store)
    (url : String) (v : Option String) :
    TokenCache.set_value ⟨fn, some st⟩ url
        ((ensureSection st (netlocOf url)).get (netlocOf url) "token")
      = .ok (⟨fn, some (ensureSection st (netlocOf url))⟩, [])
    ∧ ∃ tc2 w, TokenCache.set_value ⟨fn, some st⟩ url v = .ok (tc2, w)
        ∧ TokenCache.set_value tc2 url v = .ok (tc2, []) := by
  constructor
  · rw [set_value_eval, if_pos rfl]
  · by_cases hcur : (ensureSection st (netlocOf url)).get (netlocOf url) "token" = v
    · refine ⟨⟨fn, some (ensureSection st (netlocOf url))⟩, [], ?_, ?_⟩
      · rw [set_value_eval, if_pos hcur]
      · simp only [set_value_eval, ensure_idem]
        rw [hcur, if_pos rfl]
    · refine ⟨⟨fn, some (tokenUpd (ensureSection st (netlocOf url)) (netlocOf url) v)⟩,
        writeList fn (tokenUpd (ensureSection st (netlocOf url)) (netlocOf url) v),
        set_value_result fn st url v hcur, ?_⟩
      have hhas : (tokenUpd (ensureSection st (netlocOf url)) (netlocOf url)
          v).hasSection (netlocOf url) = true := by
        rw [hasSection_tokenUpd]
        exact hasSection_ensure_self st (netlocOf url)
      rw [set_value_eval, ensure_of_hasSection _ _ hhas,
        get_tokenUpd_self _ _ _ (hasSection_ensure_self st (netlocOf url)), if_pos rfl]

/-- Filesystem for the C3 scenario: both `/etc/bugzillarc` and the home
`~/.bugzillarc` exist, with conflicting values for the same key. -/
def c3fs : String → Option ConfigFile := fun p =>
  if p = "/etc/bugzillarc" then some [("h", [("user", "one")])]
  else if p = "/root/.bugzillarc" then some [("h", [("user", "two")])]
  else none

theorem c3fs_wf : FsWF c3fs := by
  intro p f h
  unfold c3fs at h
  by_cases h1 : p = "/etc/bugzillarc"
  · rw [if_pos h1] at h
    injection h with h2
    rw [← h2]
    exact ⟨by decide, by decide⟩
  · rw [if_neg h1] at h
    by_cases h2 : p = "/root/.bugzillarc"
    · rw [if_pos h2] at h
      injection h with h3
      rw [← h3]
      exact ⟨by decide, by decide⟩
    · rw [if_neg h2] at h
      exact absurd h (by simp)

/-- C3 counterexample: with both `/etc/bugzillarc` and `~/.bugzillarc`
present, the resolved settings do not come from the first existing path
alone: every existing file is read, the later file overrides the earlier
one for the conflicting key, and `parse` returns the later file's value. -/
theorem rcfile_first_existing_cex :
    (BugzillaRCFile.set_configpaths "/root" c3fs get_default_configpaths).cfg
      ≠ readFiles c3fs ["/etc/bugzillarc"]
    ∧ (BugzillaRCFile.set_configpaths "/root" c3fs get_default_configpaths).cfg.get
        "h" "user" = some "two"
    ∧ (readFiles c3fs ["/etc/bugzillarc"]).get "h" "user" = some "one"
    ∧ (BugzillaRCFile.set_configpaths "/root" c3fs get_default_configpaths).parse
        "http://h" = [("user", "two")] :=
  ⟨by decide, rfl, rfl, rfl⟩

/-- C3 amended: `set_configpaths` reads every existing file of the expanded
path list into one parser, in order; for each section and key the resolved
value is the one from the last existing file that defines it (later files
override earlier ones), not the first. -/
theorem rc_set_configpaths_merges (home : String) (fs : String → Option ConfigFile)
    (paths : List String) (s k : String) (hwf : FsWF fs) :
    (BugzillaRCFile.set_configpaths home fs paths).cfg.get s k
      = ((paths.map (expanduser home)).filterMap fs).reverse.findSome?
          (fun f => fileGet f s k) :=
  get_readFiles fs hwf (paths.map (expanduser home)) s k

/-- Witness for C3's amended theorem on the concrete two-file filesystem. -/
theorem rc_set_configpaths_merges_witness :
    FsWF c3fs
    ∧ (BugzillaRCFile.set_configpaths "/root" c3fs get_default_configpaths).cfg.get
        "h" "user"
      = ((get_default_configpaths.map (expanduser "/root")).filterMap
          c3fs).reverse.findSome? (fun f => fileGet f "h" "user") :=
  ⟨c3fs_wf, rc_set_configpaths_merges "/root" c3fs get_default_configpaths
    "h" "user" c3fs_wf⟩

/-! ## `dirname` never returns its whole argument (needed for C5) -/

theorem length_dropWhile_le {α : Type} (q : α → Bool) (l : List α) :
    (l.dropWhile q).length ≤ l.length := by
  induction l with
  | nil => exact Nat.le_refl 0
  | cons x rest ih =>
    by_cases h : q x = true
    · rw [List.dropWhile_cons_of_pos h]
      exact Nat.le_succ_of_le ih
    · rw [List.dropWhile_cons_of_neg h]

theorem dirnameHead_lt_of_takeWhile_ne_nil (p : String)
    (hseg : p.toList.reverse.takeWhile (fun c => c ≠ '/') ≠ [])
    (hpos : 0 < p.toList.length) :
    (dirnameHead p).length < p.toList.length := by
  rw [dirnameHead, List.length_take]
  have hs1 : 0 < (p.toList.reverse.takeWhile (fun c => c ≠ '/')).length :=
    List.length_pos.mpr hseg
  exact lt_of_le_of_lt (min_le_left _ _) (Nat.sub_lt hpos hs1)

theorem dirnameHead_eq_of_takeWhile_nil (p : String)
    (hseg : p.toList.reverse.takeWhile (fun c => c ≠ '/') = []) :
    dirnameHead p = p.toList := by
  rw [dirnameHead, hseg, List.length_nil, Nat.sub_zero, List.take_length]

theorem dirname_length_lt (p : String) (c : Char) (hc : c ∈ p.toList)
    (hcne : c ≠ '/') : (dirname p).length < p.length := by
  have hlp : p.length = p.toList.length := rfl
  have hnn : p.toList ≠ [] := List.ne_nil_of_mem hc
  have hpos : 0 < p.toList.length := List.length_pos.mpr hnn
  rw [dirname]
  by_cases hcond : (decide (dirnameHead p ≠ [])
      && !((dirnameHead p).all (fun c => c = '/'))) = true
  · rw [if_pos hcond]
    have hlen1 : (String.mk ((dirnameHead p).reverse.dropWhile
        (fun c => c = '/')).reverse).length
        = ((dirnameHead p).reverse.dropWhile (fun c => c = '/')).length := by
      show ((dirnameHead p).reverse.dropWhile (fun c => c = '/')).reverse.length = _
      rw [List.length_reverse]
    rw [hlen1, hlp]
    by_cases hseg : p.toList.reverse.takeWhile (fun c => c ≠ '/') = []
    · have hhead : dirnameHead p = p.toList := dirnameHead_eq_of_takeWhile_nil p hseg
      rcases hrev : p.toList.reverse with _ | ⟨c0, t⟩
      · exact absurd (by rw [← List.reverse_reverse p.toList, hrev]; rfl) hnn
      · have hc0 : c0 = '/' := by
          rw [hrev] at hseg
          by_cases h0 : c0 = '/'
          · exact h0
          · rw [List.takeWhile_cons_of_pos (by simp [h0])] at hseg
            exact absurd hseg (List.cons_ne_nil _ _)
        rw [hhead, hrev, hc0, List.dropWhile_cons_of_pos (by simp)]
        calc (t.dropWhile (fun c => c = '/')).length
            ≤ t.length := length_dropWhile_le _ t
          _ < p.toList.length := by
              rw [← List.length_reverse p.toList, hrev, List.length_cons]
              exact Nat.lt_succ_self _
    · calc ((dirnameHead p).reverse.dropWhile (fun c => c = '/')).length
          ≤ (dirnameHead p).reverse.length := length_dropWhile_le _ _
        _ = (dirnameHead p).length := List.length_reverse _
        _ < p.toList.length := dirnameHead_lt_of_takeWhile_ne_nil p hseg hpos
  · rw [if_neg hcond]
    have hlen2 : (String.mk (dirnameHead p)).length = (dirnameHead p).length := rfl
    rw [hlen2, hlp]
    by_cases hnil : dirnameHead p = []
    · rw [hnil]
      exact hpos
    · have hall : (dirnameHead p).all (fun c => c = '/') = true := by
        by_contra hno
        exact hcond (by simp [hnil, hno])
      by_cases hseg : p.toList.reverse.takeWhile (fun c => c ≠ '/') = []
      · have hhead : dirnameHead p = p.toList := dirnameHead_eq_of_takeWhile_nil p hseg
        rw [hhead] at hall
        have := List.all_eq_true.mp hall c hc
        exact absurd (by simpa using this) hcne
      · exact dirnameHead_lt_of_takeWhile_ne_nil p hseg hpos

theorem dirname_ne (p : String) (c : Char) (hc : c ∈ p.toList) (hcne : c ≠ '/') :
    dirname p ≠ p := by
  intro he
  have h := dirname_length_lt p c hc hcne
  rw [he] at h
  exact Nat.lt_irrefl p.length h

theorem xdg_ne_dirname (home kind filename : String) :
    xdgPathOf home kind filename ≠ dirname (xdgPathOf home kind filename) := by
  have hb : 'b' ∈ (xdgPathOf home kind filename).toList := by
    show 'b' ∈ (((home ++ "/." ++ kind) ++ "/python-bugzilla/") ++ filename).data
    rw [String.data_append, String.data_append]
    exact List.mem_append_left _ (List.mem_append_right _ (by decide))
  exact fun he => dirname_ne _ 'b' hb (by decide) he.symm

/-- C5: `_default_location` returns the XDG path when that file exists (no
side effect, even if the legacy file also exists); else the legacy path
when that file exists (no side effect); only when neither exists does it
ensure the XDG parent directory (created with mode `0o700` when missing)
and return the XDG path — and the file itself still does not exist
afterwards. -/
theorem default_location_spec (home : String) (fs : PathFS) (filename kind : String) :
    (pathExists fs (xdgPathOf home kind filename) = true →
      default_location home fs filename kind = (xdgPathOf home kind filename, fs))
    ∧ (pathExists fs (xdgPathOf home kind filename) = false →
        pathExists fs (homePathOf home filename) = true →
      default_location home fs filename kind = (homePathOf home filename, fs))
    ∧ (pathExists fs (xdgPathOf home kind filename) = false →
        pathExists fs (homePathOf home filename) = false →
      default_location home fs filename kind
        = (xdgPathOf home kind filename,
          if pathExists fs (dirname (xdgPathOf home kind filename)) then fs
          else makedirs fs (dirname (xdgPathOf home kind filename)) 448)
      ∧ pathExists (default_location home fs filename kind).2
          (xdgPathOf home kind filename) = false) := by
  refine ⟨?_, ?_, ?_⟩
  · intro h1
    simp only [default_location]
    rw [if_pos h1]
  · intro h1 h2
    simp only [default_location]
    rw [if_neg (by simp [h1]), if_pos h2]
  · intro h1 h2
    have heq : default_location home fs filename kind
        = (xdgPathOf home kind filename,
          if pathExists fs (dirname (xdgPathOf home kind filename)) then fs
          else makedirs fs (dirname (xdgPathOf home kind filename)) 448) := by
      simp only [default_location]
      rw [if_neg (by simp [h1]), if_neg (by simp [h2])]
      by_cases h3 : pathExists fs (dirname (xdgPathOf home kind filename)) = true
      · rw [if_pos h3, if_pos h3]
      · rw [if_neg h3, if_neg h3]
    refine ⟨heq, ?_⟩
    rw [heq]
    by_cases h3 : pathExists fs (dirname (xdgPathOf home kind filename)) = true
    · rw [if_pos h3]
      exact h1
    · rw [if_neg h3]
      show List.elem (xdgPathOf home kind filename)
        (fs.paths ++ [dirname (xdgPathOf home kind filename)]) = false
      cases hb : List.elem (xdgPathOf home kind filename)
          (fs.paths ++ [dirname (xdgPathOf home kind filename)]) with
      | false => rfl
      | true =>
        rcases List.mem_append.mp (List.elem_iff.mp hb) with hm | hm
        · have hx : pathExists fs (xdgPathOf home kind filename) = true :=
            List.elem_iff.mpr hm
          rw [h1] at hx
          exact absurd hx (by simp)
        · exact absurd (List.mem_singleton.mp hm)
            (xdg_ne_dirname home kind filename)

/-- Witness for C5: all three branches exercised on concrete filesystems. -/
theorem default_location_spec_witness :
    default_location "/r" ⟨["/r/.cache/python-bugzilla/bugzillatoken",
        "/r/.bugzillatoken"], []⟩ "bugzillatoken" "cache"
      = ("/r/.cache/python-bugzilla/bugzillatoken",
        ⟨["/r/.cache/python-bugzilla/bugzillatoken", "/r/.bugzillatoken"], []⟩)
    ∧ default_location "/r" ⟨["/r/.bugzillatoken"], []⟩ "bugzillatoken" "cache"
      = ("/r/.bugzillatoken", ⟨["/r/.bugzillatoken"], []⟩)
    ∧ default_location "/r" (⟨[], []⟩ : PathFS) "bugzillatoken" "cache"
      = ("/r/.cache/python-bugzilla/bugzillatoken",
        if pathExists ⟨[], []⟩ (dirname (xdgPathOf "/r" "cache" "bugzillatoken"))
        then ⟨[], []⟩
        else makedirs ⟨[], []⟩ (dirname (xdgPathOf "/r" "cache" "bugzillatoken")) 448)
    ∧ pathExists (default_location "/r" (⟨[], []⟩ : PathFS) "bugzillatoken" "cache").2
        (xdgPathOf "/r" "cache" "bugzillatoken") = false := by
  refine ⟨?_, ?_, ?_, ?_⟩
  · exact (default_location_spec "/r" ⟨["/r/.cache/python-bugzilla/bugzillatoken",
      "/r/.bugzillatoken"], []⟩ "bugzillatoken" "cache").1 (by decide)
  · exact (default_location_spec "/r" ⟨["/r/.bugzillatoken"], []⟩ "bugzillatoken"
      "cache").2.1 (by decide) (by decide)
  · exact ((default_location_spec "/r" ⟨[], []⟩ "bugzillatoken" "cache").2.2
      (by decide) (by decide)).1
  · exact ((default_location_spec "/r" ⟨[], []⟩ "bugzillatoken" "cache").2.2
      (by decide) (by decide)).2

/-- C6: binding a cookie store to a path whose file exists but whose content
does not parse as a cookie file fails with the descriptive error and
performs no filesystem side effect: the original file is left untouched. -/
theorem cookie_bad_format_fails_untouched (parseJar : String → Option (List Cookie))
    (serJar : List Cookie → String) (fs : CookieFS) (f : String)
    (hex : fs.hasFile f = true) (hbad : parseJar (fs.readFile f) = none) :
    CookieCache.set_filename parseJar serJar fs (some f)
      = (.error ("cookiefile=" ++ f ++ " not in Mozilla format"), fs) := by
  have hb : build_cookiejar parseJar serJar fs (some f)
      = (.error ("cookiefile=" ++ f ++ " not in Mozilla format"), fs) := by
    simp [build_cookiejar, hex, hbad]
  simp only [CookieCache.set_filename, hb]

/-- Witness for C6: a one-file filesystem holding garbled content and a
codec rejecting it. -/
theorem cookie_bad_format_fails_untouched_witness :
    CookieFS.hasFile ⟨[("cf", "garbage")], []⟩ "cf" = true
    ∧ (fun (_ : String) => (none : Option (List Cookie)))
        (CookieFS.readFile ⟨[("cf", "garbage")], []⟩ "cf") = none
    ∧ CookieCache.set_filename (fun _ => none) (fun _ => "")
        ⟨[("cf", "garbage")], []⟩ (some "cf")
      = (.error ("cookiefile=" ++ "cf" ++ " not in Mozilla format"),
        ⟨[("cf", "garbage")], []⟩) :=
  ⟨rfl, rfl, cookie_bad_format_fails_untouched (fun _ => none) (fun _ => "")
    ⟨[("cf", "garbage")], []⟩ "cf" rfl rfl⟩

theorem get_addSection (st : Store) (s0 : String) (h : st.hasSection s0 = false)
    (s k : String) : (st.addSection s0).get s k = st.get s k := by
  rw [Store.get, getSec_addSection]
  by_cases hs : s = s0
  · subst hs
    have hnone : st.getSec s = none := by
      rcases hg : st.getSec s with _ | a
      · rfl
      · rw [hasSection_eq_isSome, hg] at h
        exact absurd h (by simp)
    rw [hnone, if_pos rfl, oor_none_left, Store.get, hnone]
    rfl
  · rw [if_neg hs, oor_none_right, Store.get]

/-- C8: rewriting a config file through `_save_api_key` preserves every
section other than the one for `_parse_hostname(url)` and every key of that
section other than `api_key` with its previous value; only `api_key` is set,
to the stripped key; and every previously present section name is still
present. -/
theorem save_api_key_frame (dest : ConfigFile) (url api_key : String)
    (hwf : FileWF dest) :
    (∀ s k, ¬(s = parse_hostname url ∧ k = "api_key") →
      (save_api_key_store dest url api_key).get s k = fileGet dest s k)
    ∧ (save_api_key_store dest url api_key).get (parse_hostname url) "api_key"
        = some (pyStrip api_key)
    ∧ ∀ s, s ∈ fileNames dest → s ∈ (save_api_key_store dest url api_key).names := by
  have hget1 : ∀ s k, (mergeFile ⟨[]⟩ dest).get s k = fileGet dest s k := by
    intro s k
    rw [get_mergeFile ⟨[]⟩ dest s k hwf,
      show (Store.mk []).get s k = none from rfl, oor_none_right]
  by_cases hs2 : (mergeFile ⟨[]⟩ dest).hasSection (parse_hostname url) = true
  · have hres : save_api_key_store dest url api_key
        = (mergeFile ⟨[]⟩ dest).setOpt (parse_hostname url) "api_key"
            (pyStrip api_key) := by
      simp only [save_api_key_store]
      rw [if_pos hs2]
    refine ⟨?_, ?_, ?_⟩
    · intro s k hne
      rw [hres, get_setOpt_other _ _ _ _ _ _ hne, hget1]
    · rw [hres, get_setOpt_self _ _ _ _ hs2]
    · intro s hmem
      rw [hres, show ((mergeFile ⟨[]⟩ dest).setOpt (parse_hostname url) "api_key"
            (pyStrip api_key)).names = (mergeFile ⟨[]⟩ dest).names
          from names_mapSec _ _ _]
      exact mem_fileNames_mergeFile ⟨[]⟩ dest s hmem
  · have hfalse : (mergeFile ⟨[]⟩ dest).hasSection (parse_hostname url) = false := by
      cases hx : (mergeFile ⟨[]⟩ dest).hasSection (parse_hostname url)
      · rfl
      · exact absurd hx hs2
    have hres : save_api_key_store dest url api_key
        = ((mergeFile ⟨[]⟩ dest).addSection (parse_hostname url)).setOpt
            (parse_hostname url) "api_key" (pyStrip api_key) := by
      simp only [save_api_key_store]
      rw [if_neg hs2]
    have hhas2 : ((mergeFile ⟨[]⟩ dest).addSection
        (parse_hostname url)).hasSection (parse_hostname url) = true := by
      rw [hasSection_addSection]
      simp
    refine ⟨?_, ?_, ?_⟩
    · intro s k hne
      rw [hres, get_setOpt_other _ _ _ _ _ _ hne, get_addSection _ _ hfalse, hget1]
    · rw [hres, get_setOpt_self _ _ _ _ hhas2]
    · intro s hmem
      rw [hres, show (((mergeFile ⟨[]⟩ dest).addSection (parse_hostname url)).setOpt
            (parse_hostname url) "api_key" (pyStrip api_key)).names
          = ((mergeFile ⟨[]⟩ dest).addSection (parse_hostname url)).names
          from names_mapSec _ _ _]
      rw [show (mergeFile ⟨[]⟩ dest).addSection (parse_hostname url)
            = Store.mk ((mergeFile ⟨[]⟩ dest).sections ++ [(parse_hostname url, [])])
          from rfl, names_append_single]
      exact List.mem_append_left _ (mem_fileNames_mergeFile ⟨[]⟩ dest s hmem)

/-- Witness for C8 on a concrete two-section file: an unrelated section's
key survives and `api_key` is set to the stripped key. -/
theorem save_api_key_frame_witness :
    FileWF [("other", [("a", "1")]), ("h", [("b", "2")])]
    ∧ (save_api_key_store [("other", [("a", "1")]), ("h", [("b", "2")])]
        "http://h" "  K  ").get "other" "a"
      = fileGet [("other", [("a", "1")]), ("h", [("b", "2")])] "other" "a"
    ∧ (save_api_key_store [("other", [("a", "1")]), ("h", [("b", "2")])]
        "http://h" "  K  ").get (parse_hostname "http://h") "api_key"
      = some (pyStrip "  K  ") :=
  ⟨⟨by decide, by decide⟩,
    (save_api_key_frame [("other", [("a", "1")]), ("h", [("b", "2")])] "http://h"
      "  K  " ⟨by decide, by decide⟩).1 "other" "a" (by decide),
    (save_api_key_frame [("other", [("a", "1")]), ("h", [("b", "2")])] "http://h"
      "  K  " ⟨by decide, by decide⟩).2.1⟩

end Authfiles
